import Mathlib

/-!
Verification development for the ffmpeg-api composition service
(src/server.js, orchestrator variant starting at the third section of the
file: `probeDuration`, `uniqSorted`, `processVideoJob`, the `/compose` and
`/status/:jobId` endpoints).

JavaScript numbers are modelled as exact rationals (`ℚ`); `x.toFixed(3)`
followed by unary `+` is modelled as rounding to the nearest multiple of
1/1000 (`round3`).  Fallible stages are modelled with `Except`/`Option`.
-/

/-- Models `+(x).toFixed(3)`: round to the nearest 3-decimal value
(ties are immaterial for the nonnegative values this repository produces). -/
def round3 (q : ℚ) : ℚ := ((round (q * 1000) : ℤ) : ℚ) / 1000

/-- Models `uniqSorted(arr)` from src/server.js lines 262-265:
`Array.from(new Set(arr.map(x => +(+x).toFixed(3)))).sort((a,b) => a-b)`.
The JS `Set` keeps one copy of each rounded value and the final numeric
sort orders them ascending, so the result is the ascending-sorted list of
the distinct rounded values. -/
def uniqSorted (arr : List ℚ) : List ℚ :=
  List.insertionSort (· ≤ ·) ((arr.map round3).dedup)

/-- Models the loop of src/server.js lines 335-337:
`for (let t = interval; t < duration - insertLen; t += interval) points.push(+t.toFixed(3))`.
The recursion is driven by an explicit trip-count bound (`fuel`); with
`0 < interval` the canonical fuel of `loopFuel` is proven sufficient
(`pointsAux_stable`), which is exactly the loop's termination argument.
With `interval <= 0` the source loop does not terminate, and no theorem
below speaks about that regime. -/
def pointsAux (d il i : ℚ) : Nat → ℚ → List ℚ
  | 0, _ => []
  | n + 1, t => if t < d - il then round3 t :: pointsAux d il i n (t + i) else []

/-- Canonical fuel for `pointsAux`: one more than the ceiling of
`(duration - insertLen) / interval`, an upper bound on the loop's trip count
whenever `0 < interval`. -/
def loopFuel (d il i : ℚ) : Nat := (⌈(d - il) / i⌉).toNat + 1

/-- Models src/server.js lines 334-338: the raw candidate list `points` --
the loop's pushes followed by the unconditional flush-to-end push
`points.push(+(Math.max(0, duration - insertLen)).toFixed(3))`. -/
def rawPoints (d i il : ℚ) : List ℚ :=
  pointsAux d il i (loopFuel d il i) i ++ [round3 (max 0 (d - il))]

/-- Models src/server.js line 339: `const starts = uniqSorted(points)` --
the computed insertion schedule. -/
def computeSchedule (d i il : ℚ) : List ℚ := uniqSorted (rawPoints d i il)

/-- Models `probeDuration` (src/server.js lines 252-260) after the external
`ffprobe` call: `parseFloat` of the probe's output is modelled as an
`Option ℚ` (`none` for a non-finite parse result), and
`if (!isFinite(d) || d <= 0) throw new Error("bad_duration")` as the check
below. -/
def probeDurationCheck (parsed : Option ℚ) : Except String ℚ :=
  match parsed with
  | none => Except.error "bad_duration"
  | some d => if d ≤ 0 then Except.error "bad_duration" else Except.ok d

/-- Stages 1-2 of `processVideoJob` (src/server.js lines 329-339): probe the
duration, then compute the schedule.  The source performs no validation of
`interval` or `insertLen` before or during scheduling; the only guard on
this path is the `bad_duration` check inside `probeDuration`. -/
def composeStage (parsed : Option ℚ) (i il : ℚ) : Except String (List ℚ) :=
  (probeDurationCheck parsed).map (fun d => computeSchedule d i il)

/-- Stream labels of the `filter_complex` graph built in src/server.js
lines 344-396: `base`, `sc1out`, `sc2out`, the split copies `sc1_k`/`sc2_k`,
the chain intermediates `tmp_k` and the terminal video label `v`. -/
inductive Label where
  | base
  | sc1out
  | sc2out
  | sc1 (k : Nat)
  | sc2 (k : Nat)
  | tmp (k : Nat)
  | v
  deriving DecidableEq

/-- Which prepared showcase track a label belongs to: `A` is the first
showcase source's prepared stream (`sc1out` and its split copies), `B` the
second slot's (`sc2out` and its split copies). -/
inductive Track where
  | A
  | B
  deriving DecidableEq

/-- Track of a stream label, `none` for non-showcase labels. -/
def trackOf : Label → Option Track
  | Label.sc1out => some Track.A
  | Label.sc1 _ => some Track.A
  | Label.sc2out => some Track.B
  | Label.sc2 _ => some Track.B
  | _ => none

/-- One overlay node of the chain (src/server.js lines 379-394): input
stream `cur`, overlay stream `ov`, enable window `[st, en]` from
`enable='between(t,${st},${en})'`, output stream `next`. -/
structure OvNode where
  cur : Label
  ov : Label
  st : ℚ
  en : ℚ
  next : Label
  deriving DecidableEq

/-- A node of the compiled filter graph, one constructor per kind of
`parts.push` in src/server.js lines 347-394.  `baseScale` is the
`[0:v]scale=...,fps=...,format=yuv420p[base]` node; `prepSc1`/`prepSc2` are
the showcase preparation nodes (scale, rgba, trim to `insertLen`, fade
in/out), with `prepSc2.srcIdx` recording whether its raw input is `[2:v]`
(a second showcase was supplied) or `[1:v]` (reuse of the first);
`split1`/`split2` are the duplication nodes; `overlay` is one node of the
overlay chain. -/
inductive FNode where
  | baseScale (w h fps : ℚ)
  | prepSc1 (w h il fadeSec fadeOut : ℚ)
  | prepSc2 (srcIdx : Nat) (w h il fadeSec fadeOut : ℚ)
  | split1 (n : Nat)
  | split2 (n : Nat)
  | overlay (o : OvNode)
  deriving DecidableEq

/-- Models `fadeOutStart = +(insertLen - fadeSec).toFixed(3)`
(src/server.js line 344). -/
def fadeOutStart (il fadeSec : ℚ) : ℚ := round3 (il - fadeSec)

/-- Models `getSc1` (src/server.js line 373): the k-th split copy label
when more than one copy of the prepared first showcase is needed, the
prepared stream's own label otherwise. -/
def getSc1 (needSc1 k : Nat) : Label :=
  if 1 < needSc1 then Label.sc1 k else Label.sc1out

/-- Models `getSc2` (src/server.js line 374). -/
def getSc2 (needSc2 k : Nat) : Label :=
  if 1 < needSc2 then Label.sc2 k else Label.sc2out

/-- Models the `starts.forEach((st, i) => ...)` overlay-chain loop of
src/server.js lines 376-394.  `n` is `starts.length`, `i` the running
index, `used1`/`used2` the split-copy counters, `cur` the current chain
input (initially `base`). -/
def overlayChain (il : ℚ) (n needSc1 needSc2 : Nat) :
    List ℚ → Nat → Nat → Nat → Label → List OvNode
  | [], _, _, _, _ => []
  | st :: rest, i, used1, used2, cur =>
    let en := round3 (st + il - 1 / 100)
    let nxt : Label := if i = n - 1 then Label.v else Label.tmp (i + 1)
    if i % 2 = 0 then
      ⟨cur, getSc1 needSc1 (used1 + 1), st, en, nxt⟩ ::
        overlayChain il n needSc1 needSc2 rest (i + 1) (used1 + 1) used2 nxt
    else
      ⟨cur, getSc2 needSc2 (used2 + 1), st, en, nxt⟩ ::
        overlayChain il n needSc1 needSc2 rest (i + 1) used1 (used2 + 1) nxt

/-- Models the full `filter_complex` construction of src/server.js lines
344-396: base node, two showcase preparation nodes (the second reading
`[2:v]` when a second showcase URL is supplied, `[1:v]` otherwise),
optional split nodes (`needSc1 = Math.ceil(n/2)`, `needSc2 =
Math.floor(n/2)`, a split is emitted only when more than one copy is
needed), then the overlay chain. -/
def compileGraph (starts : List ℚ) (il fadeSec w h fps : ℚ) (useShow2 : Bool) :
    List FNode :=
  [FNode.baseScale w h fps,
   FNode.prepSc1 w h il fadeSec (fadeOutStart il fadeSec),
   FNode.prepSc2 (if useShow2 then 2 else 1) w h il fadeSec (fadeOutStart il fadeSec)]
  ++ (if 1 < (starts.length + 1) / 2 then [FNode.split1 ((starts.length + 1) / 2)] else [])
  ++ (if 1 < starts.length / 2 then [FNode.split2 (starts.length / 2)] else [])
  ++ (overlayChain il starts.length ((starts.length + 1) / 2) (starts.length / 2)
        starts 0 0 0 Label.base).map FNode.overlay

/-- The overlay payload of a graph node, `none` for non-overlay nodes. -/
def overlayData : FNode → Option OvNode
  | FNode.overlay o => some o
  | _ => none

/-- The overlay nodes of a compiled graph, in chain order. -/
def graphOverlays (starts : List ℚ) (il fadeSec w h fps : ℚ) (useShow2 : Bool) :
    List OvNode :=
  (compileGraph starts il fadeSec w h fps useShow2).filterMap overlayData

/-- The overlay nodes form a chain starting at `c`: each node's composite
input is the previous node's output (the first consumes `c`). -/
def chainedFrom : Label → List OvNode → Prop
  | _, [] => True
  | c, o :: rest => o.cur = c ∧ chainedFrom o.next rest

/-- Job lifecycle states of the in-memory store (src/server.js). -/
inductive JobStatus where
  | queued
  | processing
  | completed
  | failed
  deriving DecidableEq

/-- A snapshot of `inMemoryJobs[jobId]`, restricted to the fields the claims
speak about: lifecycle status, progress, the failure payload (`error` code
and `details`) and the success payload (`video_url`). -/
structure JobRec where
  status : JobStatus
  progress : Nat
  errCode : Option String
  details : Option String
  videoUrl : Option String
  deriving DecidableEq

/-- A status is terminal when it is `completed` or `failed`. -/
def terminalStatus (s : JobStatus) : Prop :=
  s = JobStatus.completed ∨ s = JobStatus.failed

/-- The record stored at submission (src/server.js lines 539-546). -/
def queuedRec : JobRec := ⟨JobStatus.queued, 0, none, none, none⟩

/-- Outcomes of the three external suspension points of one job run: the
duration probe's parsed output, the ffmpeg invocation, and the Cloudinary
upload (`ok` carries `secure_url`). -/
structure Env where
  probed : Option ℚ
  render : Except String Unit
  publish : Except String String

/-- The successive values `processVideoJob` (src/server.js lines 305-511)
writes to `inMemoryJobs[jobId]`, preceded by the `queued` record written by
the submission endpoint: progress milestones 0/10/20/30/50/80/95, then the
terminal record of whichever exit path the environment selects.  A probe
failure is caught by the outer catch (`compose_failed`); a render failure
writes `ffmpeg_failed` and returns; an upload failure writes
`cloudinary_upload_failed` and returns; otherwise the `completed` record
with the upload's URL is written.  `sendCallback` never throws (it catches
internally), so no branch writes after its terminal record. -/
def runTrace (env : Env) : List JobRec :=
  let w0 : JobRec := ⟨JobStatus.processing, 0, none, none, none⟩
  let w1 : JobRec := ⟨JobStatus.processing, 10, none, none, none⟩
  match probeDurationCheck env.probed with
  | Except.error e => [queuedRec, w0, w1, ⟨JobStatus.failed, 10, some "compose_failed", some e, none⟩]
  | Except.ok _ =>
    let w2 : JobRec := ⟨JobStatus.processing, 20, none, none, none⟩
    let w3 : JobRec := ⟨JobStatus.processing, 30, none, none, none⟩
    let w4 : JobRec := ⟨JobStatus.processing, 50, none, none, none⟩
    match env.render with
    | Except.error e =>
      [queuedRec, w0, w1, w2, w3, w4,
       ⟨JobStatus.failed, 50, some "ffmpeg_failed", some e, none⟩]
    | Except.ok _ =>
      let w5 : JobRec := ⟨JobStatus.processing, 80, none, none, none⟩
      match env.publish with
      | Except.error e =>
        [queuedRec, w0, w1, w2, w3, w4, w5,
         ⟨JobStatus.failed, 80, some "cloudinary_upload_failed", some e, none⟩]
      | Except.ok url =>
        [queuedRec, w0, w1, w2, w3, w4, w5,
         ⟨JobStatus.processing, 95, none, none, none⟩,
         ⟨JobStatus.completed, 100, none, none, some url⟩]

/-- Whether the run of `processVideoJob` deletes the temporary output file
`/tmp/final_${jobId}.mp4`.  In the source the only `fs.unlink(outFile)` is
the `finally` of the Cloudinary-upload `try` (src/server.js lines 472-475),
so it runs on the upload-failure and success paths but NOT on the
render-failure path (which returns at line 441, before that `try`) and not
on the outer-catch path. -/
def cleanupRuns (env : Env) : Bool :=
  match probeDurationCheck env.probed with
  | Except.error _ => false
  | Except.ok _ =>
    match env.render with
    | Except.error _ => false
    | Except.ok _ => true

/-- The submission request body fields that the `/compose` endpoint
inspects for validation (src/server.js lines 530-546). -/
structure ComposeReq where
  ugcUrl : Option String
  show1Url : Option String

/-- JS truthiness of an optional string field: `!x` is true for a missing
field and for the empty string. -/
def present : Option String → Bool
  | none => false
  | some s => !s.isEmpty

/-- Models the synchronous part of `app.post("/compose")` (src/server.js
lines 530-546): reject with the `Missing ugcUrl/show1Url` error when either
mandatory URL is absent, leaving the store untouched; otherwise answer with
the fresh job id and store the job as `queued`. -/
def submit (jobId : String) (req : ComposeReq) (store : String → Option JobRec) :
    Except String String × (String → Option JobRec) :=
  if !present req.ugcUrl || !present req.show1Url then
    (Except.error "Missing ugcUrl/show1Url", store)
  else
    (Except.ok jobId, fun k => if k = jobId then some queuedRec else store k)

/-- Models `app.get("/status/:jobId")` (src/server.js lines 579-587): the
current snapshot, `none` (HTTP 404) for unknown ids. -/
def getStatus (store : String → Option JobRec) (jobId : String) : Option JobRec :=
  store jobId

/-! ## Arithmetic facts about `round3` -/

theorem round3_mono {a b : ℚ} (h : a ≤ b) : round3 a ≤ round3 b := by
  have h1 : round (a * 1000) ≤ round (b * 1000) := by
    rw [round_eq, round_eq]
    exact Int.floor_mono (by linarith)
  have h2 : ((round (a * 1000) : ℤ) : ℚ) ≤ ((round (b * 1000) : ℤ) : ℚ) := by
    exact_mod_cast h1
  unfold round3
  linarith

theorem round3_zero : round3 0 = 0 := by
  unfold round3
  rw [show (0 : ℚ) * 1000 = 0 by ring, round_zero]
  norm_num

theorem round3_nonneg {a : ℚ} (h : 0 ≤ a) : 0 ≤ round3 a := by
  have := round3_mono h
  rwa [round3_zero] at this

theorem round3_intMul (m : ℤ) : round3 ((m : ℚ) / 1000) = (m : ℚ) / 1000 := by
  unfold round3
  rw [show ((m : ℚ) / 1000) * 1000 = (m : ℚ) by field_simp, round_intCast]

theorem round3_form (q : ℚ) : ∃ m : ℤ, round3 q = (m : ℚ) / 1000 :=
  ⟨round (q * 1000), rfl⟩

theorem round3_idem (q : ℚ) : round3 (round3 q) = round3 q := by
  obtain ⟨m, hm⟩ := round3_form q
  rw [hm, round3_intMul]

/-! ## Facts about `uniqSorted` -/

theorem uniqSorted_sorted (arr : List ℚ) : (uniqSorted arr).Sorted (· ≤ ·) :=
  List.sorted_insertionSort _ _

theorem uniqSorted_nodup (arr : List ℚ) : (uniqSorted arr).Nodup :=
  ((List.perm_insertionSort _ _).nodup_iff).mpr (List.nodup_dedup _)

theorem uniqSorted_sorted_lt (arr : List ℚ) : (uniqSorted arr).Sorted (· < ·) :=
  ((uniqSorted_sorted arr).and (uniqSorted_nodup arr)).imp
    (fun h => lt_of_le_of_ne h.1 h.2)

theorem mem_uniqSorted {x : ℚ} {arr : List ℚ} :
    x ∈ uniqSorted arr ↔ ∃ a ∈ arr, round3 a = x := by
  unfold uniqSorted
  rw [(List.perm_insertionSort _ _).mem_iff, List.mem_dedup, List.mem_map]

theorem getLast?_of_sorted_max (l : List ℚ) :
    ∀ M : ℚ, l.Sorted (· ≤ ·) → M ∈ l → (∀ x ∈ l, x ≤ M) → l.getLast? = some M := by
  induction l with
  | nil => intro M _ hm _; simp at hm
  | cons a t ih =>
    intro M hs hm hmax
    cases t with
    | nil =>
      simp only [List.mem_singleton] at hm
      simp [hm]
    | cons b t2 =>
      rw [List.getLast?_cons_cons]
      rw [List.sorted_cons] at hs
      apply ih M hs.2
      · rcases List.mem_cons.1 hm with h | h
        · have hab : a ≤ b := hs.1 b (by simp)
          have hbM : b ≤ M := hmax b (by simp)
          have : b = M := le_antisymm hbM (h ▸ hab)
          simp [this]
        · exact h
      · intro x hx
        exact hmax x (List.mem_cons_of_mem a hx)

/-! ## Facts about the schedule loop -/

theorem mem_pointsAux {d il i : ℚ} (hi : 0 ≤ i) :
    ∀ {n : Nat} {t x : ℚ}, x ∈ pointsAux d il i n t →
      ∃ s, x = round3 s ∧ t ≤ s ∧ s < d - il := by
  intro n
  induction n with
  | zero => intro t x hx; simp [pointsAux] at hx
  | succ m ih =>
    intro t x hx
    simp only [pointsAux] at hx
    by_cases hc : t < d - il
    · rw [if_pos hc] at hx
      rcases List.mem_cons.1 hx with h | h
      · exact ⟨t, h, le_refl t, hc⟩
      · obtain ⟨s, hs1, hs2, hs3⟩ := ih h
        exact ⟨s, hs1, by linarith, hs3⟩
    · rw [if_neg hc] at hx
      simp at hx

theorem ceil_shift {d il i t : ℚ} (hi : i ≠ 0) :
    ⌈(d - il - (t + i)) / i⌉ = ⌈(d - il - t) / i⌉ - 1 := by
  have h1 : (d - il - (t + i)) / i = (d - il - t) / i - ((1 : ℤ) : ℚ) := by
    push_cast
    field_simp
    ring
  rw [h1, Int.ceil_sub_int]

theorem pointsAux_length (d il i : ℚ) (hi : 0 < i) :
    ∀ (n : Nat) (t : ℚ), (pointsAux d il i n t).length ≤ (⌈(d - il - t) / i⌉).toNat := by
  intro n
  induction n with
  | zero => intro t; simp [pointsAux]
  | succ m ih =>
    intro t
    simp only [pointsAux]
    by_cases hc : t < d - il
    · rw [if_pos hc]
      simp only [List.length_cons]
      have h1 := ih (t + i)
      rw [ceil_shift (ne_of_gt hi)] at h1
      have hpos : 0 < ⌈(d - il - t) / i⌉ :=
        Int.ceil_pos.mpr (div_pos (by linarith) hi)
      omega
    · rw [if_neg hc]
      simp

theorem pointsAux_stable_step {d il i : ℚ} (hi : 0 < i) :
    ∀ (n : Nat) (t : ℚ), ⌈(d - il - t) / i⌉ ≤ (n : ℤ) →
      pointsAux d il i (n + 1) t = pointsAux d il i n t := by
  intro n
  induction n with
  | zero =>
    intro t h
    have h2 : (d - il - t) / i ≤ ((0 : ℤ) : ℚ) := Int.ceil_le.mp (by exact_mod_cast h)
    have h3 : ¬(t < d - il) := by
      intro hlt
      have : (0 : ℚ) < (d - il - t) / i := div_pos (by linarith) hi
      push_cast at h2
      linarith
    simp only [pointsAux]
    rw [if_neg h3]
  | succ m ih =>
    intro t h
    simp only [pointsAux]
    by_cases hc : t < d - il
    · rw [if_pos hc, if_pos hc]
      congr 1
      apply ih
      rw [ceil_shift (ne_of_gt hi)]
      omega
    · rw [if_neg hc, if_neg hc]

theorem pointsAux_stable {d il i : ℚ} (hi : 0 < i) {n : Nat} {t : ℚ}
    (hb : ⌈(d - il - t) / i⌉ ≤ (n : ℤ)) :
    ∀ m, n ≤ m → pointsAux d il i m t = pointsAux d il i n t := by
  intro m
  induction m with
  | zero =>
    intro h0
    have : n = 0 := Nat.le_zero.mp h0
    rw [this]
  | succ k ih =>
    intro hk
    by_cases hnk : n ≤ k
    · calc pointsAux d il i (k + 1) t
          = pointsAux d il i k t := by
            apply pointsAux_stable_step hi
            exact le_trans hb (by exact_mod_cast hnk)
        _ = pointsAux d il i n t := ih hnk
    · have : n = k + 1 := by omega
      rw [this]

theorem loopFuel_suff {d il i : ℚ} (hi : 0 < i) :
    ⌈(d - il - i) / i⌉ ≤ (loopFuel d il i : ℤ) := by
  have h1 : ⌈(d - il - (0 + i)) / i⌉ = ⌈(d - il - 0) / i⌉ - 1 := ceil_shift (ne_of_gt hi)
  rw [zero_add] at h1
  rw [sub_zero] at h1
  have h2 := Int.self_le_toNat ⌈(d - il) / i⌉
  unfold loopFuel
  push_cast
  omega

theorem rawPoints_fuel (d i il : ℚ) (K : Nat) (h : loopFuel d il i = K) :
    rawPoints d i il = pointsAux d il i K i ++ [round3 (max 0 (d - il))] := by
  rw [rawPoints, h]

theorem mem_rawPoints {d i il x : ℚ} (hi : 0 < i) (hx : x ∈ rawPoints d i il) :
    (∃ s, x = round3 s ∧ i ≤ s ∧ s < d - il) ∨ x = round3 (max 0 (d - il)) := by
  rw [rawPoints] at hx
  rcases List.mem_append.1 hx with h | h
  · exact Or.inl (mem_pointsAux (le_of_lt hi) h)
  · exact Or.inr (List.mem_singleton.1 h)

theorem flush_mem_rawPoints (d i il : ℚ) :
    round3 (max 0 (d - il)) ∈ rawPoints d i il := by
  rw [rawPoints]
  exact List.mem_append_right _ (List.mem_singleton.2 rfl)

/-! ## Claim C1 -/

/-- C1 (amended): for `duration > insertLen > 0` and `interval > 0` the
computed schedule is strictly ascending, every element lies in
`[0, round3 duration]` (the claim's bound `[0, duration]` fails, see the
counterexample: rounding a candidate up can exceed the duration by up to
1/2000 when `insertLen < 1/2000`), and the last element is
`round3 (max 0 (duration - insertLen))`. -/
theorem C1_schedule_shape (d i il : ℚ) (hil : 0 < il) (hd : il < d) (hi : 0 < i) :
    (computeSchedule d i il).Sorted (· < ·) ∧
    (∀ x ∈ computeSchedule d i il, 0 ≤ x ∧ x ≤ round3 d) ∧
    (computeSchedule d i il).getLast? = some (round3 (max 0 (d - il))) := by
  refine ⟨uniqSorted_sorted_lt _, ?_, ?_⟩
  · intro x hx
    rw [computeSchedule] at hx
    obtain ⟨a, ha, hax⟩ := mem_uniqSorted.1 hx
    rcases mem_rawPoints hi ha with ⟨s, rfl, his, hs⟩ | rfl
    · rw [← hax, round3_idem]
      exact ⟨round3_nonneg (by linarith), round3_mono (by linarith)⟩
    · rw [← hax, round3_idem]
      exact ⟨round3_nonneg (le_max_left _ _),
        round3_mono (max_le (by linarith) (by linarith))⟩
  · rw [computeSchedule]
    apply getLast?_of_sorted_max _ _ (uniqSorted_sorted _)
    · exact mem_uniqSorted.2 ⟨_, flush_mem_rawPoints d i il, round3_idem _⟩
    · intro x hx
      obtain ⟨a, ha, hax⟩ := mem_uniqSorted.1 hx
      rcases mem_rawPoints hi ha with ⟨s, rfl, his, hs⟩ | rfl
      · rw [← hax, round3_idem]
        exact round3_mono (le_trans (le_of_lt hs) (le_max_right _ _))
      · rw [← hax, round3_idem]

/-- C1 counterexample: at `duration = 3/5000 = 0.0006`,
`interval = 1`, `insertLen = 1/10000 = 0.0001` (all hypotheses of the
claim hold), the schedule is `[0.001]`, whose element exceeds the
duration `0.0006` — so "every element in `[0, duration]`" is false as
stated. -/
theorem C1_schedule_shape_counterexample :
    ((0 : ℚ) < 1 / 10000 ∧ (1 : ℚ) / 10000 < 3 / 5000 ∧ (0 : ℚ) < 1) ∧
    computeSchedule (3 / 5000) 1 (1 / 10000) = [1 / 1000] ∧
    ¬((1 : ℚ) / 1000 ≤ 3 / 5000) := by
  refine ⟨by norm_num, ?_, by norm_num⟩
  rw [computeSchedule, rawPoints_fuel (3 / 5000) 1 (1 / 10000) 2 (by
    rw [loopFuel, show ((3 : ℚ) / 5000 - 1 / 10000) / 1 = 1 / 2000 by norm_num,
      show ⌈(1 : ℚ) / 2000⌉ = 1 by rw [Int.ceil_eq_iff]; constructor <;> norm_num]
    decide)]
  norm_num [pointsAux, uniqSorted, round3, round_eq,
    List.dedup_cons_of_mem, List.dedup_cons_of_not_mem, List.insertionSort,
    List.orderedInsert]

/-- C1 witness: the amended claim at `duration = 20`, `interval = 7`,
`insertLen = 3` (spec Scenario A). -/
theorem C1_schedule_shape_witness :
    (computeSchedule 20 7 3).Sorted (· < ·) ∧
    (∀ x ∈ computeSchedule 20 7 3, 0 ≤ x ∧ x ≤ round3 20) ∧
    (computeSchedule 20 7 3).getLast? = some (round3 (max 0 (20 - 3))) :=
  C1_schedule_shape 20 7 3 (by norm_num) (by norm_num) (by norm_num)

/-! ## Claim C6 -/

/-- C6: whenever `duration <= insertLen` (with positive interval and
insert length) the loop contributes nothing and the schedule is exactly
`[0]`. -/
theorem C6_short_duration (d i il : ℚ) (hd : d ≤ il) (hi : 0 < i) (hil : 0 < il) :
    computeSchedule d i il = [0] := by
  have hloop : pointsAux d il i (loopFuel d il i) i = [] := by
    rw [loopFuel]
    simp only [pointsAux]
    rw [if_neg (by intro h; linarith : ¬i < d - il)]
  have hflush : max 0 (d - il) = 0 := max_eq_left (by linarith)
  rw [computeSchedule, rawPoints, hloop, hflush, round3_zero]
  simp [uniqSorted, List.insertionSort, List.orderedInsert, round3_zero,
    List.dedup_cons_of_not_mem]

/-- C6 witness: spec Scenario C, `duration = 2`, `insertLen = 3`. -/
theorem C6_short_duration_witness : computeSchedule 2 7 3 = [0] :=
  C6_short_duration 2 7 3 (by norm_num) (by norm_num) (by norm_num)

/-! ## Claim C9 -/

theorem mem_rawPoints_form {d i il x : ℚ} (hi : 0 < i) (hx : x ∈ rawPoints d i il) :
    ∃ m : ℤ, x = (m : ℚ) / 1000 := by
  rcases mem_rawPoints hi hx with ⟨s, rfl, _, _⟩ | rfl
  · exact round3_form s
  · exact round3_form _

/-- C9: two raw candidate timestamps produced by the schedule algorithm
that lie within 1/2000 of each other are in fact equal (every candidate is
already a multiple of 1/1000), and deduplication keeps exactly one schedule
entry for them. -/
theorem C9_dedup_collapse (d i il x y : ℚ) (hi : 0 < i)
    (hx : x ∈ rawPoints d i il) (hy : y ∈ rawPoints d i il)
    (hclose : |x - y| ≤ 1 / 2000) :
    x = y ∧ (computeSchedule d i il).count x = 1 := by
  obtain ⟨mx, rfl⟩ := mem_rawPoints_form hi hx
  obtain ⟨my, rfl⟩ := mem_rawPoints_form hi hy
  have hxy : mx = my := by
    by_contra hne
    have h1 : 1 ≤ |mx - my| := Int.one_le_abs (sub_ne_zero.mpr hne)
    have h2 : (1 : ℚ) ≤ |(mx : ℚ) - (my : ℚ)| := by
      exact_mod_cast h1
    have h3 : (mx : ℚ) / 1000 - (my : ℚ) / 1000 = ((mx : ℚ) - (my : ℚ)) / 1000 := by
      ring
    rw [h3, abs_div, show |(1000 : ℚ)| = 1000 by norm_num] at hclose
    rw [div_le_div_iff (by norm_num) (by norm_num)] at hclose
    linarith
  subst hxy
  refine ⟨rfl, ?_⟩
  apply List.count_eq_one_of_mem (uniqSorted_nodup _)
  exact mem_uniqSorted.2 ⟨_, hx, round3_intMul mx⟩

/-- C9 witness: at `duration = 20`, `interval = 7`, `insertLen = 3` the
candidates `7` and `7` (difference `0 ≤ 1/2000`) collapse to a single
schedule entry. -/
theorem C9_dedup_collapse_witness :
    (7 : ℚ) = 7 ∧ (computeSchedule 20 7 3).count 7 = 1 := by
  have h7 : (7 : ℚ) ∈ rawPoints 20 7 3 := by
    rw [rawPoints_fuel 20 7 3 4 (by
      rw [loopFuel, show ((20 : ℚ) - 3) / 7 = 17 / 7 by norm_num,
        show ⌈(17 : ℚ) / 7⌉ = 3 by rw [Int.ceil_eq_iff]; constructor <;> norm_num]
      decide)]
    norm_num [pointsAux, round3, round_eq]
  exact C9_dedup_collapse 20 7 3 7 7 (by norm_num) h7 h7 (by norm_num)

/-! ## Claim C10 -/

/-- C10: with `interval > 0` and `insertLen > 0` the schedule loop
terminates — its result is unchanged by any fuel at or beyond `loopFuel`,
i.e. the loop has finished within `loopFuel` iterations — and it pushes at
most `⌈duration / interval⌉` values before the flush-to-end push.  The
hypothesis `0 < i` is exactly the condition the source code does not
enforce; with `interval <= 0` the source loop never exits. -/
theorem C10_loop_terminates (d i il : ℚ) (m : Nat) (hi : 0 < i) (hil : 0 < il)
    (hm : loopFuel d il i ≤ m) :
    pointsAux d il i m i = pointsAux d il i (loopFuel d il i) i ∧
    (pointsAux d il i (loopFuel d il i) i).length ≤ (⌈d / i⌉).toNat := by
  constructor
  · exact pointsAux_stable hi (loopFuel_suff hi) m hm
  · have h1 := pointsAux_length d il i hi (loopFuel d il i) i
    have h2 : ⌈(d - il - i) / i⌉ ≤ ⌈d / i⌉ := by
      apply Int.ceil_mono
      rw [div_le_div_iff hi hi]
      nlinarith
    omega

/-- C10 witness: at `duration = 20`, `interval = 7`, `insertLen = 3` and
fuel `10`. -/
theorem C10_loop_terminates_witness :
    pointsAux 20 3 7 10 7 = pointsAux 20 3 7 (loopFuel 20 3 7) 7 ∧
    (pointsAux 20 3 7 (loopFuel 20 3 7) 7).length ≤ (⌈(20 : ℚ) / 7⌉).toNat :=
  C10_loop_terminates 20 7 3 10 (by norm_num) (by norm_num) (by
    rw [loopFuel, show ((20 : ℚ) - 3) / 7 = 17 / 7 by norm_num,
      show ⌈(17 : ℚ) / 7⌉ = 3 by rw [Int.ceil_eq_iff]; constructor <;> norm_num]
    decide)

/-! ## Claim C4 -/

/-- C4 (amended): the only pre-scheduling guard in the code is the
duration check of `probeDuration`: a non-finite or non-positive parsed
duration fails with `bad_duration` before any schedule is computed, and
for a positive parsed duration the stage succeeds and returns the
schedule — there is no `InvalidConfig` validation of `interval` or
`insertLen` (see the counterexample: `insertLen = 0` succeeds). -/
theorem C4_validation (parsed : Option ℚ) (i il : ℚ) :
    (parsed = none ∨ (∃ dv, parsed = some dv ∧ dv ≤ 0) →
      composeStage parsed i il = Except.error "bad_duration") ∧
    (∀ dv, parsed = some dv → 0 < dv →
      composeStage parsed i il = Except.ok (computeSchedule dv i il)) := by
  constructor
  · rintro (rfl | ⟨dv, rfl, hdv⟩)
    · rfl
    · simp only [composeStage, probeDurationCheck]
      rw [if_pos hdv]
      rfl
  · rintro dv rfl hdv
    simp only [composeStage, probeDurationCheck]
    rw [if_neg (by intro h; linarith : ¬dv ≤ 0)]
    rfl

/-- C4 counterexample: with a valid probed duration `10` and
`interval = 7` but `insertLen = 0 ≤ 0`, the stage does not fail at all
(no `InvalidConfig`, no error): it produces the schedule `[7, 10]`. -/
theorem C4_validation_counterexample :
    composeStage (some 10) 7 0 = Except.ok [7, 10] := by
  simp only [composeStage, probeDurationCheck]
  rw [if_neg (by norm_num : ¬(10 : ℚ) ≤ 0)]
  show Except.ok (computeSchedule 10 7 0) = _
  rw [computeSchedule, rawPoints_fuel 10 7 0 3 (by
    rw [loopFuel, show ((10 : ℚ) - 0) / 7 = 10 / 7 by norm_num,
      show ⌈(10 : ℚ) / 7⌉ = 2 by rw [Int.ceil_eq_iff]; constructor <;> norm_num]
    decide)]
  norm_num [pointsAux, uniqSorted, round3, round_eq,
    List.dedup_cons_of_mem, List.dedup_cons_of_not_mem, List.insertionSort,
    List.orderedInsert]

/-- C4 witness: the duration guard fires on an invalid probe result and
the stage succeeds on a valid one. -/
theorem C4_validation_witness :
    composeStage none 7 3 = Except.error "bad_duration" ∧
    composeStage (some 10) 7 3 = Except.ok (computeSchedule 10 7 3) :=
  ⟨(C4_validation none 7 3).1 (Or.inl rfl),
   (C4_validation (some 10) 7 3).2 10 rfl (by norm_num)⟩

/-! ## Facts about the overlay chain -/

theorem overlayChain_length (il : ℚ) (n s1 s2 : Nat) :
    ∀ (l : List ℚ) (i u1 u2 : Nat) (c : Label),
      (overlayChain il n s1 s2 l i u1 u2 c).length = l.length := by
  intro l
  induction l with
  | nil => intro i u1 u2 c; rfl
  | cons st rest ih =>
    intro i u1 u2 c
    simp only [overlayChain]
    by_cases hp : i % 2 = 0
    · rw [if_pos hp]
      simp [ih]
    · rw [if_neg hp]
      simp [ih]

theorem overlayChain_chained (il : ℚ) (n s1 s2 : Nat) :
    ∀ (l : List ℚ) (i u1 u2 : Nat) (c : Label),
      chainedFrom c (overlayChain il n s1 s2 l i u1 u2 c) := by
  intro l
  induction l with
  | nil => intro i u1 u2 c; trivial
  | cons st rest ih =>
    intro i u1 u2 c
    simp only [overlayChain]
    by_cases hp : i % 2 = 0
    · rw [if_pos hp]
      exact ⟨rfl, ih _ _ _ _⟩
    · rw [if_neg hp]
      exact ⟨rfl, ih _ _ _ _⟩

theorem getLast?_cons_of_ne_nil {α : Type} (a : α) {l : List α} (h : l ≠ []) :
    (a :: l).getLast? = l.getLast? := by
  cases l with
  | nil => exact absurd rfl h
  | cons b t => rw [List.getLast?_cons_cons]

theorem overlayChain_ne_nil (il : ℚ) (n s1 s2 : Nat) (st : ℚ) (rest : List ℚ)
    (i u1 u2 : Nat) (c : Label) :
    overlayChain il n s1 s2 (st :: rest) i u1 u2 c ≠ [] := by
  intro hnil
  have := overlayChain_length il n s1 s2 (st :: rest) i u1 u2 c
  rw [hnil] at this
  simp at this

theorem overlayChain_last (il : ℚ) (n s1 s2 : Nat) :
    ∀ (l : List ℚ) (i u1 u2 : Nat) (c : Label), l ≠ [] → i + l.length = n →
      ((overlayChain il n s1 s2 l i u1 u2 c).map OvNode.next).getLast? =
        some Label.v := by
  intro l
  induction l with
  | nil => intro i u1 u2 c h; exact absurd rfl h
  | cons st rest ih =>
    intro i u1 u2 c _ hn
    simp only [overlayChain]
    by_cases hp : i % 2 = 0
    · rw [if_pos hp, List.map_cons]
      cases rest with
      | nil =>
        have hi : i = n - 1 := by simp at hn; omega
        simp [overlayChain, hi]
      | cons st2 rest2 =>
        rw [getLast?_cons_of_ne_nil]
        · exact ih (i + 1) (u1 + 1) u2 _ (by simp) (by simp at hn ⊢; omega)
        · intro hnil
          rw [List.map_eq_nil_iff] at hnil
          exact overlayChain_ne_nil il n s1 s2 st2 rest2 (i + 1) (u1 + 1) u2 _ hnil
    · rw [if_neg hp, List.map_cons]
      cases rest with
      | nil =>
        have hi : i = n - 1 := by simp at hn; omega
        simp [overlayChain, hi]
      | cons st2 rest2 =>
        rw [getLast?_cons_of_ne_nil]
        · exact ih (i + 1) u1 (u2 + 1) _ (by simp) (by simp at hn ⊢; omega)
        · intro hnil
          rw [List.map_eq_nil_iff] at hnil
          exact overlayChain_ne_nil il n s1 s2 st2 rest2 (i + 1) u1 (u2 + 1) _ hnil

theorem overlayChain_windows (il : ℚ) (n s1 s2 : Nat) :
    ∀ (l : List ℚ) (i u1 u2 : Nat) (c : Label),
      (overlayChain il n s1 s2 l i u1 u2 c).map (fun o => (o.st, o.en)) =
        l.map (fun s => (s, round3 (s + il - 1 / 100))) := by
  intro l
  induction l with
  | nil => intro i u1 u2 c; rfl
  | cons st rest ih =>
    intro i u1 u2 c
    simp only [overlayChain]
    by_cases hp : i % 2 = 0
    · rw [if_pos hp]
      simp only [List.map_cons, ih]
    · rw [if_neg hp]
      simp only [List.map_cons, ih]

theorem trackOf_getSc1 (s1 k : Nat) : trackOf (getSc1 s1 k) = some Track.A := by
  unfold getSc1
  by_cases h : 1 < s1
  · rw [if_pos h]; rfl
  · rw [if_neg h]; rfl

theorem trackOf_getSc2 (s2 k : Nat) : trackOf (getSc2 s2 k) = some Track.B := by
  unfold getSc2
  by_cases h : 1 < s2
  · rw [if_pos h]; rfl
  · rw [if_neg h]; rfl

theorem overlayChain_parity (il : ℚ) (n s1 s2 : Nat) :
    ∀ (l : List ℚ) (i u1 u2 : Nat) (c : Label) (j : Nat) (o : OvNode),
      (overlayChain il n s1 s2 l i u1 u2 c)[j]? = some o →
      trackOf o.ov = some (if (i + j) % 2 = 0 then Track.A else Track.B) := by
  intro l
  induction l with
  | nil => intro i u1 u2 c j o h; simp [overlayChain] at h
  | cons st rest ih =>
    intro i u1 u2 c j o h
    simp only [overlayChain] at h
    by_cases hp : i % 2 = 0
    · rw [if_pos hp] at h
      cases j with
      | zero =>
        rw [List.getElem?_cons_zero] at h
        have ho : o = ⟨c, getSc1 s1 (u1 + 1), st, round3 (st + il - 1 / 100),
            if i = n - 1 then Label.v else Label.tmp (i + 1)⟩ := by
          exact (Option.some.injEq _ _ ▸ h).symm
        rw [ho]
        have hif : (i + 0) % 2 = 0 := by omega
        rw [if_pos hif]
        exact trackOf_getSc1 s1 (u1 + 1)
      | succ j2 =>
        rw [List.getElem?_cons_succ] at h
        have := ih (i + 1) (u1 + 1) u2 _ j2 o h
        have harith : (i + 1 + j2) % 2 = (i + (j2 + 1)) % 2 := by omega
        rwa [harith] at this
    · rw [if_neg hp] at h
      cases j with
      | zero =>
        rw [List.getElem?_cons_zero] at h
        have ho : o = ⟨c, getSc2 s2 (u2 + 1), st, round3 (st + il - 1 / 100),
            if i = n - 1 then Label.v else Label.tmp (i + 1)⟩ := by
          exact (Option.some.injEq _ _ ▸ h).symm
        rw [ho]
        have hif : ¬(i + 0) % 2 = 0 := by omega
        rw [if_neg hif]
        exact trackOf_getSc2 s2 (u2 + 1)
      | succ j2 =>
        rw [List.getElem?_cons_succ] at h
        have := ih (i + 1) u1 (u2 + 1) _ j2 o h
        have harith : (i + 1 + j2) % 2 = (i + (j2 + 1)) % 2 := by omega
        rwa [harith] at this

theorem graphOverlays_eq (starts : List ℚ) (il fadeSec w h fps : ℚ) (u : Bool) :
    graphOverlays starts il fadeSec w h fps u =
      overlayChain il starts.length ((starts.length + 1) / 2) (starts.length / 2)
        starts 0 0 0 Label.base := by
  unfold graphOverlays compileGraph
  rw [List.filterMap_append, List.filterMap_append, List.filterMap_append]
  have h1 : List.filterMap overlayData
      [FNode.baseScale w h fps,
       FNode.prepSc1 w h il fadeSec (fadeOutStart il fadeSec),
       FNode.prepSc2 (if u then 2 else 1) w h il fadeSec (fadeOutStart il fadeSec)] = [] := by
    rfl
  have h2 : ∀ (b : Bool) (x : FNode), overlayData x = none →
      List.filterMap overlayData (if b = true then [x] else []) = [] := by
    intro b x hx
    cases b
    · rfl
    · simp [hx]
  rw [h1]
  rw [show (if 1 < (starts.length + 1) / 2 then [FNode.split1 ((starts.length + 1) / 2)]
      else []) = (if decide (1 < (starts.length + 1) / 2) = true
        then [FNode.split1 ((starts.length + 1) / 2)] else []) by simp]
  rw [show (if 1 < starts.length / 2 then [FNode.split2 (starts.length / 2)]
      else []) = (if decide (1 < starts.length / 2) = true
        then [FNode.split2 (starts.length / 2)] else []) by simp]
  rw [h2 (decide (1 < (starts.length + 1) / 2)) (FNode.split1 ((starts.length + 1) / 2)) rfl,
    h2 (decide (1 < starts.length / 2)) (FNode.split2 (starts.length / 2)) rfl]
  simp only [List.nil_append]
  rw [List.filterMap_map]
  have h3 : (overlayData ∘ FNode.overlay) = some := by
    funext o
    rfl
  rw [h3, List.filterMap_some]

/-! ## Claim C2 -/

/-- C2 (amended): for a non-empty schedule the compiled graph has exactly
one overlay node per schedule entry, chained so that node `i` consumes node
`i-1`'s output (node 0 consumes `base`), the last node emits the terminal
label `v`, and node `i`'s enable window is
`[start_i, round3 (start_i + insertLen - 0.01)]` — the source applies
`toFixed(3)` to the window end, so the claim's un-rounded end
`start_i + insertLen - 0.01` is only reached when it already has at most 3
decimals (see the counterexample). -/
theorem C2_overlay_graph (starts : List ℚ) (il fadeSec w h fps : ℚ) (u : Bool)
    (hne : starts ≠ []) :
    (graphOverlays starts il fadeSec w h fps u).length = starts.length ∧
    chainedFrom Label.base (graphOverlays starts il fadeSec w h fps u) ∧
    ((graphOverlays starts il fadeSec w h fps u).map OvNode.next).getLast? =
      some Label.v ∧
    (graphOverlays starts il fadeSec w h fps u).map (fun o => (o.st, o.en)) =
      starts.map (fun s => (s, round3 (s + il - 1 / 100))) := by
  rw [graphOverlays_eq]
  exact ⟨overlayChain_length _ _ _ _ _ _ _ _ _,
    overlayChain_chained _ _ _ _ _ _ _ _ _,
    overlayChain_last _ _ _ _ _ _ _ _ _ hne (Nat.zero_add _),
    overlayChain_windows _ _ _ _ _ _ _ _ _⟩

/-- C2 counterexample: with `insertLen = 7501/2500 = 3.0004` and the
one-element schedule `[7]`, the compiled overlay node's enable window ends
at `round3 (7 + 3.0004 - 0.01) = 9.99`, not at the claim's
`7 + insertLen - 0.01 = 9.9904`. -/
theorem C2_overlay_graph_counterexample :
    (graphOverlays [7] (7501 / 2500) (1 / 2) 720 1280 30 true).map
        (fun o => (o.st, o.en)) ≠
      [((7 : ℚ), 7 + 7501 / 2500 - 1 / 100)] := by
  rw [graphOverlays_eq, overlayChain_windows]
  simp only [List.map_cons, List.map_nil, ne_eq, List.cons.injEq, Prod.mk.injEq]
  norm_num [round3, round_eq]

/-- C2 witness: the amended claim at the spec Scenario A schedule
`[7, 14, 17]` with default parameters. -/
theorem C2_overlay_graph_witness :
    (graphOverlays [7, 14, 17] 3 (1 / 2) 720 1280 30 true).length =
      ([7, 14, 17] : List ℚ).length ∧
    chainedFrom Label.base (graphOverlays [7, 14, 17] 3 (1 / 2) 720 1280 30 true) ∧
    ((graphOverlays [7, 14, 17] 3 (1 / 2) 720 1280 30 true).map OvNode.next).getLast? =
      some Label.v ∧
    (graphOverlays [7, 14, 17] 3 (1 / 2) 720 1280 30 true).map (fun o => (o.st, o.en)) =
      ([7, 14, 17] : List ℚ).map (fun s => (s, round3 (s + 3 - 1 / 100))) :=
  C2_overlay_graph [7, 14, 17] 3 (1 / 2) 720 1280 30 true (by simp)

/-! ## Claim C8 -/

/-- C8: overlay slots alternate by index parity — the overlay node at
schedule index `j` composites a copy of prepared track `A` (the first
showcase source, `sc1out` or one of its split copies) when `j` is even and
of track `B` (`sc2out` or a split copy) when `j` is odd — and the track-B
preparation node reads raw source 2 when a second showcase was supplied
and source 1 (a reuse of the first) otherwise. -/
theorem C8_alternation (starts : List ℚ) (il fadeSec w h fps : ℚ) (u : Bool)
    (j : Nat) (o : OvNode)
    (ho : (graphOverlays starts il fadeSec w h fps u)[j]? = some o) :
    trackOf o.ov = some (if j % 2 = 0 then Track.A else Track.B) ∧
    FNode.prepSc2 (if u then 2 else 1) w h il fadeSec (fadeOutStart il fadeSec) ∈
      compileGraph starts il fadeSec w h fps u := by
  constructor
  · rw [graphOverlays_eq] at ho
    have := overlayChain_parity il starts.length ((starts.length + 1) / 2)
      (starts.length / 2) starts 0 0 0 Label.base j o ho
    simpa using this
  · simp [compileGraph]

/-- C8 witness: in the graph for schedule `[7, 14]` the overlay node at
index 1 (odd) composites track `B` (`sc2out`). -/
theorem C8_alternation_witness :
    trackOf (OvNode.mk (Label.tmp 1) Label.sc2out 14 (round3 (14 + 3 - 1 / 100))
        Label.v).ov = some (if 1 % 2 = 0 then Track.A else Track.B) ∧
    FNode.prepSc2 2 720 1280 3 (1 / 2) (fadeOutStart 3 (1 / 2)) ∈
      compileGraph [7, 14] 3 (1 / 2) 720 1280 30 true :=
  C8_alternation [7, 14] 3 (1 / 2) 720 1280 30 true 1
    (OvNode.mk (Label.tmp 1) Label.sc2out 14 (round3 (14 + 3 - 1 / 100)) Label.v)
    (by
      rw [graphOverlays_eq]
      simp [overlayChain, getSc1, getSc2])

/-! ## Claim C3 -/

/-- The store after a sequence of writes to `inMemoryJobs[jobId]`. -/
def applyWrites (jobId : String) (store : String → Option JobRec)
    (ws : List JobRec) : String → Option JobRec :=
  ws.foldl (fun st w => fun k => if k = jobId then some w else st k) store

theorem applyWrites_last (jobId : String) :
    ∀ (ws : List JobRec) (store : String → Option JobRec) (r : JobRec),
      ws.getLast? = some r →
      getStatus (applyWrites jobId store ws) jobId = some r := by
  intro ws
  induction ws with
  | nil => intro store r h; cases h
  | cons a t ih =>
    intro store r h
    cases t with
    | nil =>
      rw [List.getLast?_singleton] at h
      cases h
      show (if jobId = jobId then some a else store jobId) = some a
      rw [if_pos rfl]
    | cons b t2 =>
      rw [List.getLast?_cons_cons] at h
      exact ih _ r h

theorem terminal_write_is_last (L : List JobRec)
    (hdrop : ∀ r ∈ L.dropLast, ¬terminalStatus r.status)
    (j : Nat) (r : JobRec) (hj : L[j]? = some r) (ht : terminalStatus r.status) :
    j + 1 = L.length ∧ L.getLast? = some r := by
  have hjlen : j < L.length := by
    by_contra hge
    rw [List.getElem?_eq_none (le_of_not_lt hge)] at hj
    cases hj
  by_cases hlast : j + 1 = L.length
  · refine ⟨hlast, ?_⟩
    rw [List.getLast?_eq_getElem?]
    have hidx : L.length - 1 = j := by omega
    rw [hidx]
    exact hj
  · exfalso
    have hr : r ∈ L.dropLast := by
      apply List.getElem?_mem (n := j)
      rw [List.dropLast_eq_take, List.getElem?_take]
      rw [if_pos (by omega)]
      exact hj
    exact hdrop r hr ht

/-- C3: in every environment, the only write of a terminal record that
`processVideoJob` performs is its final write — a terminal status is
written exactly once, as the last mutation of the job record — and so
every `getStatus` read performed after the run observes exactly that
terminal record (same status, same payload). -/
theorem C3_terminal_absorbing (env : Env) (j : Nat) (r : JobRec)
    (jid : String) (store : String → Option JobRec)
    (hj : (runTrace env)[j]? = some r) (ht : terminalStatus r.status) :
    j + 1 = (runTrace env).length ∧ (runTrace env).getLast? = some r ∧
    getStatus (applyWrites jid store (runTrace env)) jid = some r := by
  have hmain : j + 1 = (runTrace env).length ∧ (runTrace env).getLast? = some r := by
    apply terminal_write_is_last _ _ j r hj ht
    rcases env with ⟨p, ren, pub⟩
    rcases hpc : probeDurationCheck p with e | dd
    · simp only [runTrace, hpc]
      intro q hq
      simp only [List.dropLast, List.mem_cons, List.not_mem_nil, or_false] at hq
      rcases hq with rfl | rfl | rfl <;> simp [queuedRec, terminalStatus]
    · rcases ren with e2 | u2
      · simp only [runTrace, hpc]
        intro q hq
        simp only [List.dropLast, List.mem_cons, List.not_mem_nil, or_false] at hq
        rcases hq with rfl | rfl | rfl | rfl | rfl | rfl <;>
          simp [queuedRec, terminalStatus]
      · rcases pub with e3 | url
        · simp only [runTrace, hpc]
          intro q hq
          simp only [List.dropLast, List.mem_cons, List.not_mem_nil, or_false] at hq
          rcases hq with rfl | rfl | rfl | rfl | rfl | rfl | rfl <;>
            simp [queuedRec, terminalStatus]
        · simp only [runTrace, hpc]
          intro q hq
          simp only [List.dropLast, List.mem_cons, List.not_mem_nil, or_false] at hq
          rcases hq with rfl | rfl | rfl | rfl | rfl | rfl | rfl | rfl <;>
            simp [queuedRec, terminalStatus]
  exact ⟨hmain.1, hmain.2, applyWrites_last jid _ store r hmain.2⟩

/-- C3 witness: in the environment where the probe fails, the
`compose_failed` terminal record is the fourth and last write. -/
theorem C3_terminal_absorbing_witness :
    3 + 1 = (runTrace ⟨none, Except.ok (), Except.ok "u"⟩).length ∧
    (runTrace ⟨none, Except.ok (), Except.ok "u"⟩).getLast? =
      some ⟨JobStatus.failed, 10, some "compose_failed", some "bad_duration", none⟩ ∧
    getStatus (applyWrites "job1" (fun _ => none)
        (runTrace ⟨none, Except.ok (), Except.ok "u"⟩)) "job1" =
      some ⟨JobStatus.failed, 10, some "compose_failed", some "bad_duration", none⟩ :=
  C3_terminal_absorbing ⟨none, Except.ok (), Except.ok "u"⟩ 3
    ⟨JobStatus.failed, 10, some "compose_failed", some "bad_duration", none⟩
    "job1" (fun _ => none)
    (by simp [runTrace, probeDurationCheck])
    (Or.inr rfl)

/-! ## Claim C5 -/

/-- C5 (code bug): the temporary-artifact cleanup does not run on every
exit path.  The only `fs.unlink(outFile)` is the `finally` attached to the
Cloudinary-upload `try`, so cleanup runs on the upload-failure and success
paths (second and third conjuncts) but NOT when the render stage fails —
that branch returns before the upload `try` begins (first conjunct) —
contradicting both the spec's "runs on every exit path" and the source's
own comment "Always attempt to delete the temporary file". -/
theorem C5_render_failure_leak :
    cleanupRuns ⟨some 10, Except.error "boom", Except.ok "url"⟩ = false ∧
    cleanupRuns ⟨some 10, Except.ok (), Except.error "denied"⟩ = true ∧
    cleanupRuns ⟨some 10, Except.ok (), Except.ok "url"⟩ = true := by
  refine ⟨?_, ?_, ?_⟩ <;> norm_num [cleanupRuns, probeDurationCheck]

/-! ## Claim C7 -/

/-- C7: submission validation checks exactly the presence of the two
mandatory asset URLs.  If either is missing the request is rejected
synchronously with the `Missing ugcUrl/show1Url` error and the job store
is untouched (no id is issued, `getStatus` observes nothing new); if both
are present — the only validation performed — the fresh id is returned and
the job is stored as `queued`. -/
theorem C7_submission_validation (jobId : String) (req : ComposeReq)
    (store : String → Option JobRec) (k : String) :
    ((present req.ugcUrl = false ∨ present req.show1Url = false) →
      (submit jobId req store).1 = Except.error "Missing ugcUrl/show1Url" ∧
      getStatus (submit jobId req store).2 k = getStatus store k) ∧
    (present req.ugcUrl = true → present req.show1Url = true →
      (submit jobId req store).1 = Except.ok jobId ∧
      getStatus (submit jobId req store).2 jobId = some queuedRec) := by
  constructor
  · intro hmiss
    have hcond : (!present req.ugcUrl || !present req.show1Url) = true := by
      rcases hmiss with h | h <;> simp [h]
    unfold submit
    rw [if_pos hcond]
    exact ⟨rfl, rfl⟩
  · intro h1 h2
    have hcond : ¬((!present req.ugcUrl || !present req.show1Url) = true) := by
      simp [h1, h2]
    unfold submit
    rw [if_neg hcond]
    refine ⟨rfl, ?_⟩
    show (if jobId = jobId then some queuedRec else store jobId) = some queuedRec
    rw [if_pos rfl]

/-- C7 witness: a request missing `show1Url` is rejected and leaves the
empty store empty; a request with both URLs creates the `queued` record. -/
theorem C7_submission_validation_witness :
    ((submit "j1" ⟨some "u", none⟩ (fun _ => none)).1 =
        Except.error "Missing ugcUrl/show1Url" ∧
      getStatus (submit "j1" ⟨some "u", none⟩ (fun _ => none)).2 "j1" =
        getStatus (fun _ => none) "j1") ∧
    ((submit "j2" ⟨some "u", some "s"⟩ (fun _ => none)).1 = Except.ok "j2" ∧
      getStatus (submit "j2" ⟨some "u", some "s"⟩ (fun _ => none)).2 "j2" =
        some queuedRec) :=
  ⟨(C7_submission_validation "j1" ⟨some "u", none⟩ (fun _ => none) "j1").1
      (Or.inr rfl),
   (C7_submission_validation "j2" ⟨some "u", some "s"⟩ (fun _ => none) "j2").2
      rfl rfl⟩
